import Mathlib

/-!
Verification of the Bayzzer prototype (Datalog-driven Bayesian fuzzing engine)
against its natural-language specification.

This file gives a shallow embedding, in Lean 4, of the parts of the Python
source that the specification's claims are about:

* `bayzzer_engine.py` — the per-target budget computation of
  `run_fuzzing_campaign` and the target-skipping behaviour of
  `exploitation_round`;
* `bayesian_network/inference.py` — `compute_alarm_probabilities`,
  `rank_alarms`, `reset_negative_evidence`;
* `bayesian_network/network_builder.py` — the cycle-removal step of
  `build_network` and `clear_evidence`;
* `datalog_analysis/derivation_graph.py` — `add_fact`,
  `add_rule_application` and the `apply_rules` fixpoint loop;
* `fuzzer/mutation_strategies.py` — the mutation operators.

Python dictionaries are modelled as association lists (insertion-ordered, as
in CPython), Python sets of hashable records as `Finset`s, floats as `ℚ`
(only order and field structure of the budget/probability arithmetic is
relevant to the claims), byte strings as `List ℕ` with values < 256, and
calls to `random.randint(lo, hi)` as explicit seed arguments fed through a
`randint` function whose result always lies in `[lo, hi]`, exactly as
Python's does.
-/

namespace Bayzzer

/-! ### Association-list lookup (model of Python `dict` access)

`lookupKey l k` models `d.get(k)` on an insertion-ordered dict rendered as
the association list `l` (first binding wins; dict keys are unique). -/

def lookupKey {β : Type} : List (String × β) → String → Option β
  | [], _ => none
  | p :: l, k => if p.1 = k then some p.2 else lookupKey l k

/-! ### C4 — per-target budget in `run_fuzzing_campaign` (`bayzzer_engine.py` 259-263)

The Python code is:
```
remaining = total_time - (time.time() - start_time)
current_beta = min(beta, remaining / len(targets)) if targets else beta
if current_beta < 0.1:
    current_beta = remaining if remaining > 0 else 0.1
```
`currentBeta` is that computation as a pure function of the round budget
`beta`, the `remaining` campaign budget, and the number of targets. -/

def currentBeta (beta remaining : ℚ) (numTargets : ℕ) : ℚ :=
  let cb := if numTargets ≠ 0 then min beta (remaining / numTargets) else beta
  if cb < 1/10 then (if remaining > 0 then remaining else 1/10) else cb

/-! ### C3/C7 — `compute_alarm_probabilities` (`inference.py` 20-56)

For each alarm node (a node of the built network whose id starts with
`Alarm`), the method first consults the evidence dict: a pinned alarm gets
`float(evidence[alarm])` with no inference query.  Otherwise it runs a
variable-elimination query; if the query raises, the alarm gets `0.0` and
the loop continues.  The inference engine is modelled as an oracle
`query : String → Option ℚ`, `none` standing for a raised exception
(disconnected node, inconsistent evidence, ...). -/

def computeAlarmProbabilities (alarmNodes : List String) (evidence : List (String × ℕ))
    (query : String → Option ℚ) : List (String × ℚ) :=
  alarmNodes.foldl
    (fun results a =>
      match lookupKey evidence a with
      | some v => results ++ [(a, (v : ℚ))]
      | none =>
        match query a with
        | some p => results ++ [(a, p)]
        | none => results ++ [(a, 0)])
    []

/-- The probability `compute_alarm_probabilities` assigns to one alarm:
pinned evidence verbatim, else the query result, else `0.0` on failure. -/
def alarmProbability (evidence : List (String × ℕ)) (query : String → Option ℚ)
    (a : String) : ℚ :=
  match lookupKey evidence a with
  | some v => (v : ℚ)
  | none =>
    match query a with
    | some p => p
    | none => 0

/-! ### C2 — `rank_alarms` (`inference.py` 58-65)

`sorted(probs.items(), key=lambda item: item[1], reverse=True)` is
CPython's stable sort on the insertion-ordered items of the probability
dict, by probability descending.  A stable sort by a key is uniquely
determined by the input order, and Mathlib's `insertionSort` with the
relation "probability of the left is at least that of the right" is that
stable sort: each element is inserted before the first element whose key is
not larger, hence after all strictly larger keys and before equal keys
coming later in the input. -/

def rankAlarms (probs : List (String × ℚ)) : List (String × ℚ) :=
  List.insertionSort (fun x y => y.2 ≤ x.2) probs

/-! ### C8 — mutation operators (`fuzzer/mutation_strategies.py`)

Byte strings are `List ℕ` with entries below 256.  Each call to
`random.randint(lo, hi)` is modelled by `randint lo hi seed` for an
arbitrary seed; like Python's, its result always lies in `[lo, hi]`.
`random.choice(xs)` is modelled by indexing with `seed % xs.length`, and
`random.choice([True, False])` by an explicit `Bool` argument. -/

def randint (lo hi seed : ℕ) : ℕ := lo + seed % (hi + 1 - lo)

/-- `bit_flip`: XOR a random bit into a random byte. -/
def bitFlip (data : List ℕ) (s1 s2 : ℕ) : List ℕ :=
  if data.isEmpty then data
  else
    let idx := randint 0 (data.length - 1) s1
    let bit := randint 0 7 s2
    data.set idx ((data.getD idx 0) ^^^ (2 ^ bit))

/-- `byte_flip`: XOR a random byte with `0xFF`. -/
def byteFlip (data : List ℕ) (s1 : ℕ) : List ℕ :=
  if data.isEmpty then data
  else
    let idx := randint 0 (data.length - 1) s1
    data.set idx ((data.getD idx 0) ^^^ 0xFF)

/-- `arithmetic`: add or subtract a small value modulo 256 at a random
byte.  Python's `%` on a possibly negative dividend and positive modulus is
`Int.emod` followed by `toNat`. -/
def arithmetic (data : List ℕ) (s1 s2 : ℕ) (add : Bool) : List ℕ :=
  if data.isEmpty then data
  else
    let idx := randint 0 (data.length - 1) s1
    let val := randint 1 10 s2
    if add then data.set idx ((data.getD idx 0 + val) % 256)
    else data.set idx ((((data.getD idx 0 : ℤ) - (val : ℤ)) % 256).toNat)

/-- The list of interesting 32-bit constants in `interesting_values`. -/
def interestingInts : List ℕ := [0, 0xFFFFFFFF, 0x7FFFFFFF, 0x80000000, 0xFFFF, 0x7FFF]

/-- `struct.pack('<I', v)`: the four little-endian bytes of `v`. -/
def packLE32 (v : ℕ) : List ℕ :=
  [v % 256, v / 256 % 256, v / 65536 % 256, v / 16777216 % 256]

/-- `interesting_values`: on an input shorter than 4 bytes (but non-empty)
append a packed interesting constant; otherwise overwrite 4 bytes at a
random in-bounds offset. -/
def interestingValues (data : List ℕ) (s1 s2 : ℕ) : List ℕ :=
  if data.isEmpty then data
  else
    let chunk := packLE32 (interestingInts.getD (s2 % interestingInts.length) 0)
    if data.length < 4 then data ++ chunk
    else
      let idx := randint 0 (data.length - 4) s1
      ((((data.set idx (chunk.getD 0 0)).set (idx + 1) (chunk.getD 1 0)).set
        (idx + 2) (chunk.getD 2 0)).set (idx + 3) (chunk.getD 3 0))

/-- `splice`: if either input is falsy return `data1 or data2`, else take a
head of `data1` and a tail of `data2` at random crossover points. -/
def splice (d1 d2 : List ℕ) (s1 s2 : ℕ) : List ℕ :=
  if d1.isEmpty then d2
  else if d2.isEmpty then d1
  else d1.take (randint 0 d1.length s1) ++ d2.drop (randint 0 d2.length s2)

/-- `mutate`: dispatch on a random choice among the four unary strategies. -/
def mutate (data : List ℕ) (k s1 s2 : ℕ) (add : Bool) : List ℕ :=
  match k % 4 with
  | 0 => bitFlip data s1 s2
  | 1 => byteFlip data s1
  | 2 => arithmetic data s1 s2 add
  | _ => interestingValues data s1 s2

/-! ### C1 — cycle removal in `build_network` (`network_builder.py` 45-72)

The derivation graph's directed edges over node identities are an edge
list.  `nx.simple_cycles` enumerates every elementary (simple) cycle, each
once, as a list of distinct nodes in some rotation; for each enumerated
cycle the code removes the edge from its last node to its first node if it
is still present.  When the graph is already acyclic the enumeration is
empty and nothing is removed.  A cycle `[v0, …, vk]` denotes the closed
walk `v0 → v1 → … → vk → v0`; `cycleClose` appends the closing step. -/

def cycleClose (c : List String) : List String := c ++ [c.headD ""]

/-- `c` is a (not necessarily simple) directed cycle of the edge list `g`:
a non-empty node list each of whose cyclically consecutive pairs is an
edge. -/
def IsCycleList (g : List (String × String)) (c : List String) : Prop :=
  c ≠ [] ∧ List.Chain' (fun a b => (a, b) ∈ g) (cycleClose c)

/-- An elementary cycle: a directed cycle with pairwise distinct nodes —
what `nx.simple_cycles` enumerates. -/
def IsElemCycle (g : List (String × String)) (c : List String) : Prop :=
  IsCycleList g c ∧ c.Nodup

/-- A directed graph is acyclic when it has no directed cycle. -/
def IsAcyclic (g : List (String × String)) : Prop :=
  ∀ c, ¬ IsCycleList g c

/-- The edge `(cycle[-1], cycle[0])` that `build_network` removes for an
enumerated cycle. -/
def backEdge (c : List String) : String × String := (c.getLastD "", c.headD "")

/-- `if temp_graph.has_edge(u, v): temp_graph.remove_edge(u, v)`. -/
def removeCycleEdge (g : List (String × String)) (c : List String) :
    List (String × String) :=
  g.filter fun e => e ≠ backEdge c

/-- The cycle-removal loop of `build_network`: for each enumerated cycle,
remove its last-to-first edge if still present. -/
def breakCycles (g : List (String × String)) (L : List (List String)) :
    List (String × String) :=
  L.foldl removeCycleEdge g

/-! ### C5 — the `apply_rules` fixpoint loop (`derivation_graph.py` 132-180)

Facts are the tuples stored as graph-node attributes `(predicate, args)`;
`self.facts` is a Python set of their canonical ids, which determine the
tuples (for C variable names, which contain no comma, the id rendering
`Pred(arg1, arg2)` is injective), so the fact store is a `Finset` of
tuples.  A rule application is determined by its rule name, premises and
conclusion — the data from which its canonical node id is built.  One pass
of the `while changed` loop iterates over a snapshot of the facts, fires
R1, R2, R3 on that snapshot, and deduplicates both facts (`add_fact`) and
rule applications (`add_rule_application`); `changed` is set exactly when
some rule application was new, i.e. when the pass enlarged the set of rule
applications. -/

inductive Fact where
  | Input (v : String)
  | Taint (v : String)
  | Flow (v1 v2 : String)
  | Memory (v : String) (s : ℕ)
  | Alarm (s : ℕ)
deriving DecidableEq

/-- A rule application: rule name, premise facts, conclusion fact. -/
def RApp : Type := String × List Fact × Fact

instance : DecidableEq RApp := by
  unfold RApp
  infer_instance

/-- The state of the derivation graph that `apply_rules` manipulates. -/
structure DGState where
  facts : Finset Fact
  ruleApps : Finset RApp

/-- Variables `v` with `Input(v)` in the store. -/
def inputVars (F : Finset Fact) : Finset String :=
  F.biUnion fun f => match f with | .Input v => {v} | _ => ∅

/-- Variables `v` with `Taint(v)` in the store. -/
def taintVars (F : Finset Fact) : Finset String :=
  F.biUnion fun f => match f with | .Taint v => {v} | _ => ∅

/-- Pairs `(v1, v2)` with `Flow(v1, v2)` in the store. -/
def flowPairs (F : Finset Fact) : Finset (String × String) :=
  F.biUnion fun f => match f with | .Flow a b => {(a, b)} | _ => ∅

/-- Pairs `(v, s)` with `Memory(v, s)` in the store. -/
def memPairs (F : Finset Fact) : Finset (String × ℕ) :=
  F.biUnion fun f => match f with | .Memory v s => {(v, s)} | _ => ∅

/-- The matches of rule R2: a snapshot taint `Taint(v1)` and a flow
`Flow(f1, f2)` with `f1 = v1`. -/
def r2Pairs (F : Finset Fact) : Finset (String × (String × String)) :=
  ((taintVars F) ×ˢ (flowPairs F)).filter fun p => p.2.1 = p.1

/-- The matches of rule R3: a snapshot taint `Taint(v)` and a memory fact
`Memory(m, s)` with `m = v`. -/
def r3Pairs (F : Finset Fact) : Finset (String × (String × ℕ)) :=
  ((taintVars F) ×ˢ (memPairs F)).filter fun p => p.2.1 = p.1

def r1Facts (F : Finset Fact) : Finset Fact := (inputVars F).image Fact.Taint

def r2Facts (F : Finset Fact) : Finset Fact :=
  (r2Pairs F).image fun p => Fact.Taint p.2.2

def r3Facts (F : Finset Fact) : Finset Fact :=
  (r3Pairs F).image fun p => Fact.Alarm p.2.2

def r1Apps (F : Finset Fact) : Finset RApp :=
  (inputVars F).image fun v => (("R1", [Fact.Input v], Fact.Taint v) : RApp)

def r2Apps (F : Finset Fact) : Finset RApp :=
  (r2Pairs F).image fun p =>
    (("R2", [Fact.Taint p.1, Fact.Flow p.2.1 p.2.2], Fact.Taint p.2.2) : RApp)

def r3Apps (F : Finset Fact) : Finset RApp :=
  (r3Pairs F).image fun p =>
    (("R3", [Fact.Taint p.1, Fact.Memory p.2.1 p.2.2], Fact.Alarm p.2.2) : RApp)

/-- One pass of the `while changed` loop: fire R1, R2, R3 on the snapshot
and deduplicate into the stores. -/
def pass (s : DGState) : DGState where
  facts := s.facts ∪ r1Facts s.facts ∪ r2Facts s.facts ∪ r3Facts s.facts
  ruleApps := s.ruleApps ∪ r1Apps s.facts ∪ r2Apps s.facts ∪ r3Apps s.facts

/-- Tainted-variable universe of an initial store: variables that are
already tainted, are inputs, or are flow targets. -/
def taintU (F : Finset Fact) : Finset String :=
  taintVars F ∪ inputVars F ∪ (flowPairs F).image Prod.snd

/-- The Herbrand bound on derivable facts: the initial facts plus taints of
input variables and flow targets plus alarms of memory lines. -/
def factUniverse (F : Finset Fact) : Finset Fact :=
  F ∪ (inputVars F).image Fact.Taint ∪
    ((flowPairs F).image fun p => Fact.Taint p.2) ∪
    ((memPairs F).image fun p => Fact.Alarm p.2)

/-- The finite universe of rule applications reachable from a state. -/
def appUniverse (s : DGState) : Finset RApp :=
  s.ruleApps ∪ r1Apps s.facts ∪
    (((taintU s.facts) ×ˢ flowPairs s.facts).image fun p =>
      (("R2", [Fact.Taint p.1, Fact.Flow p.2.1 p.2.2], Fact.Taint p.2.2) : RApp)) ∪
    (((taintU s.facts) ×ˢ memPairs s.facts).image fun p =>
      (("R3", [Fact.Taint p.1, Fact.Memory p.2.1 p.2.2], Fact.Alarm p.2.2) : RApp))

/-! ### C6 — `add_rule_application` (`datalog_analysis/derivation_graph.py` 104-130)

The networkx `DiGraph` is modelled by its node set, edge set and the
`rules_applied` counter.  `add_edge` implicitly inserts both endpoints as
nodes, as networkx does.  Python's `sorted` on strings is lexicographic on
code points, which is Lean's `≤` on `String`; `"_".join` is
`String.intercalate "_"`. -/

structure DGraph where
  nodes : Finset String
  edges : Finset (String × String)
  rulesApplied : ℕ

/-- The canonical rule-application node id
`Rule_<rule>_[<sorted premises joined by _>]-><conclusion>` built at
`derivation_graph.py` 117-118. -/
def ruleNodeId (rule : String) (premises : List String) (conclusion : String) : String :=
  "Rule_" ++ rule ++ "_[" ++
    String.intercalate "_" (List.insertionSort (fun a b : String => a ≤ b) premises) ++
    "]->" ++ conclusion

def addRuleApplication (g : DGraph) (rule : String) (premises : List String)
    (conclusion : String) : DGraph × Bool :=
  let rid := ruleNodeId rule premises conclusion
  if rid ∈ g.nodes then (g, false)
  else
    ({ nodes := (insert rid g.nodes ∪ premises.toFinset) ∪ {conclusion},
       edges := (g.edges ∪ (premises.map fun p => (p, rid)).toFinset) ∪ {(rid, conclusion)},
       rulesApplied := g.rulesApplied + 1 }, true)

/-! ### C9 — `reset_negative_evidence` (`inference.py` 79-87) and
`clear_evidence` (`network_builder.py` 178-183)

`clear_evidence(variable)` deletes the key if `variable` is truthy and
present, and clears the whole evidence dict when `variable` is falsy
(`None` or the empty string).  `reset_negative_evidence` iterates over a
snapshot of the evidence items and calls `clear_evidence(node)` for every
item whose value is `0`. -/

def clearEvidence (ev : List (String × ℕ)) (x : Option String) : List (String × ℕ) :=
  match x with
  | some s => if s = "" then [] else ev.filter (fun p => p.1 ≠ s)
  | none => []

def resetNegativeEvidence (ev : List (String × ℕ)) : List (String × ℕ) :=
  ev.foldl (fun acc p => if p.2 = 0 then clearEvidence acc (some p.1) else acc) ev

/-! ### C10 — `exploitation_round` (`bayzzer_engine.py` 168-179)

For each `(alarm_id, prob)` target the code looks the alarm up in the
`alarm_lines` dict and runs `if not line: continue` — so both a missing
entry (`None`) and an entry equal to `0` are skipped: nothing is appended
to `results` and `targets_fuzzed` is not incremented.  We track the list of
alarm ids actually fuzzed and the `targets_fuzzed` counter. -/

/-- One iteration of the target loop: look the alarm id up in
`alarm_lines`; `if not line: continue`; otherwise append a result tuple and
increment `targets_fuzzed`. -/
def exploitStep (alarmLines : List (String × ℕ)) (acc : List String × ℕ)
    (t : String × ℚ) : List String × ℕ :=
  match lookupKey alarmLines t.1 with
  | none => acc
  | some l => if l = 0 then acc else (acc.1 ++ [t.1], acc.2 + 1)

def exploitationRound (alarmLines : List (String × ℕ)) (targets : List (String × ℚ)) :
    List String × ℕ :=
  targets.foldl (exploitStep alarmLines) ([], 0)

/-- The targets `exploitation_round` actually fuzzes: those whose alarm id
maps to a nonzero line number in `alarm_lines`. -/
def fuzzableTargets (alarmLines : List (String × ℕ)) (targets : List (String × ℚ)) :
    List (String × ℚ) :=
  targets.filter (fun t => (lookupKey alarmLines t.1).getD 0 ≠ 0)

/-! ## Helper lemmas for C9 -/

lemma clearEvidence_some (ev : List (String × ℕ)) (s : String) :
    clearEvidence ev (some s) = if s = "" then [] else ev.filter (fun p => p.1 ≠ s) := rfl

/-- Membership in the result of `clearEvidence` implies membership in the input. -/
lemma mem_clearEvidence {ev : List (String × ℕ)} {x : Option String}
    {q : String × ℕ} (h : q ∈ clearEvidence ev x) : q ∈ ev := by
  cases x with
  | none => simp [clearEvidence] at h
  | some s =>
    by_cases hs : s = "" <;> simp [clearEvidence, hs] at h
    · exact h.1

/-- The fold inside `reset_negative_evidence` only ever shrinks the
accumulator (as a set of items). -/
lemma mem_reset_foldl {l : List (String × ℕ)} :
    ∀ {acc : List (String × ℕ)} {q : String × ℕ},
      q ∈ l.foldl (fun acc p => if p.2 = 0 then clearEvidence acc (some p.1) else acc) acc →
      q ∈ acc := by
  induction l with
  | nil => intro acc q h; simpa using h
  | cons p l ih =>
    intro acc q h
    have h' := ih h
    dsimp only at h'
    by_cases hp : p.2 = 0
    · rw [if_pos hp] at h'
      exact mem_clearEvidence h'
    · rwa [if_neg hp] at h'

/-- An item with value `0` that occurs in the iterated snapshot does not
survive the fold. -/
lemma not_mem_reset_foldl_of_zero {l : List (String × ℕ)} :
    ∀ {acc : List (String × ℕ)} {q : String × ℕ}, q.2 = 0 → q ∈ l →
      q ∉ l.foldl (fun acc p => if p.2 = 0 then clearEvidence acc (some p.1) else acc) acc := by
  induction l with
  | nil => intro acc q _ hq; simp at hq
  | cons p l ih =>
    intro acc q hq0 hq hmem
    rcases List.mem_cons.mp hq with rfl | hql
    · -- the step for `q` itself removes it, and the rest of the fold never re-adds it
      have hstep : q ∉ (if q.2 = 0 then clearEvidence acc (some q.1) else acc) →
          q ∉ List.foldl (fun acc p => if p.2 = 0 then clearEvidence acc (some p.1) else acc)
            (if q.2 = 0 then clearEvidence acc (some q.1) else acc) l := by
        intro hna hcontra
        exact hna (mem_reset_foldl hcontra)
      refine hstep ?_ hmem
      simp only [hq0, if_pos rfl]
      intro hin
      unfold clearEvidence at hin
      by_cases he : q.1 = "" <;> simp [he] at hin
    · exact ih hq0 hql hmem
/-- If no snapshot item has value `0`, the fold is the identity. -/
lemma reset_foldl_of_no_zero {l : List (String × ℕ)} :
    ∀ {acc : List (String × ℕ)}, (∀ p ∈ l, p.2 ≠ 0) →
      l.foldl (fun acc p => if p.2 = 0 then clearEvidence acc (some p.1) else acc) acc = acc := by
  induction l with
  | nil => intro acc _; rfl
  | cons p l ih =>
    intro acc hno
    have hp : p.2 ≠ 0 := hno p (List.mem_cons_self p l)
    simp only [List.foldl_cons, hp, if_neg hp]
    exact ih fun q hq => hno q (List.mem_cons_of_mem p hq)

/-- After `reset_negative_evidence` no surviving entry has value `0`. -/
lemma reset_no_zero {ev : List (String × ℕ)} {q : String × ℕ}
    (h : q ∈ resetNegativeEvidence ev) : q.2 ≠ 0 := by
  intro hq0
  exact not_mem_reset_foldl_of_zero hq0 (mem_reset_foldl h) h

/-- General description of the fold: provided no iterated key is the empty
string, it filters from the accumulator every entry whose key carries value
`0` somewhere in the snapshot. -/
lemma reset_foldl_filter {l : List (String × ℕ)} :
    ∀ {acc : List (String × ℕ)}, (∀ p ∈ l, p.1 ≠ "") →
      l.foldl (fun acc p => if p.2 = 0 then clearEvidence acc (some p.1) else acc) acc =
        acc.filter (fun q => decide (∀ p ∈ l, p.2 = 0 → p.1 ≠ q.1)) := by
  induction l with
  | nil =>
    intro acc _
    simp
  | cons p l ih =>
    intro acc hne
    have hp1 : p.1 ≠ "" := hne p (List.mem_cons_self p l)
    have hne' : ∀ q ∈ l, q.1 ≠ "" := fun q hq => hne q (List.mem_cons_of_mem p hq)
    by_cases hp : p.2 = 0
    · simp only [List.foldl_cons]
      dsimp only
      rw [if_pos hp, ih hne', clearEvidence_some, if_neg hp1, List.filter_filter]
      apply List.filter_congr
      intro q _
      rw [← Bool.decide_and, decide_eq_decide]
      constructor
      · rintro ⟨h1, h2⟩
        intro r hr hr0
        rcases List.mem_cons.mp hr with rfl | hrl
        · exact fun hc => h2 hc.symm
        · exact h1 r hrl hr0
      · intro h
        exact ⟨fun r hr hr0 => h r (List.mem_cons_of_mem p hr) hr0,
          (h p (List.mem_cons_self p l) hp).symm⟩
    · simp only [List.foldl_cons]
      dsimp only
      rw [if_neg hp, ih hne']
      apply List.filter_congr
      intro q _
      rw [decide_eq_decide]
      constructor
      · intro h r hr hr0
        rcases List.mem_cons.mp hr with rfl | hrl
        · exact absurd hr0 hp
        · exact h r hrl hr0
      · intro h r hr hr0
        exact h r (List.mem_cons_of_mem p hr) hr0

/-- If two entries of the evidence list share a key and the key list is
duplicate-free, they are the same entry. -/
lemma eq_of_mem_of_nodup_keys {ev : List (String × ℕ)}
    (hnd : (ev.map Prod.fst).Nodup) {p q : String × ℕ}
    (hp : p ∈ ev) (hq : q ∈ ev) (hk : p.1 = q.1) : p = q :=
  List.inj_on_of_nodup_map hnd hp hq hk

/-! ## Helper lemma for C10 -/

lemma exploitationRound_foldl (alarmLines : List (String × ℕ)) :
    ∀ (targets : List (String × ℚ)) (res : List String) (n : ℕ),
      targets.foldl (exploitStep alarmLines) (res, n) =
      (res ++ (fuzzableTargets alarmLines targets).map Prod.fst,
        n + (fuzzableTargets alarmLines targets).length) := by
  intro targets
  induction targets with
  | nil => intro res n; simp [fuzzableTargets]
  | cons t ts ih =>
    intro res n
    simp only [List.foldl_cons]
    rcases hl : lookupKey alarmLines t.1 with _ | l
    · have hft : fuzzableTargets alarmLines (t :: ts) = fuzzableTargets alarmLines ts := by
        simp [fuzzableTargets, hl]
      have hstep : exploitStep alarmLines (res, n) t = (res, n) := by
        simp [exploitStep, hl]
      rw [hstep, hft, ih]
    · by_cases h0 : l = 0
      · have hft : fuzzableTargets alarmLines (t :: ts) = fuzzableTargets alarmLines ts := by
          simp [fuzzableTargets, hl, h0]
        have hstep : exploitStep alarmLines (res, n) t = (res, n) := by
          simp [exploitStep, hl, h0]
        rw [hstep, hft, ih]
      · have hft : fuzzableTargets alarmLines (t :: ts) =
            t :: fuzzableTargets alarmLines ts := by
          simp [fuzzableTargets, hl, h0]
        have hstep : exploitStep alarmLines (res, n) t = (res ++ [t.1], n + 1) := by
          simp [exploitStep, hl, h0]
        rw [hstep, hft, ih]
        simp [Nat.add_comm, Nat.add_assoc, Nat.add_left_comm]

/-! ## Helper lemmas for C3 and C7 -/

/-- Each iteration of the loop in `compute_alarm_probabilities` appends
exactly one entry, for the current alarm. -/
lemma computeStep_eq (evidence : List (String × ℕ)) (query : String → Option ℚ)
    (results : List (String × ℚ)) (a : String) :
    (match lookupKey evidence a with
      | some v => results ++ [(a, (v : ℚ))]
      | none =>
        match query a with
        | some p => results ++ [(a, p)]
        | none => results ++ [(a, 0)]) =
      results ++ [(a, alarmProbability evidence query a)] := by
  unfold alarmProbability
  rcases lookupKey evidence a with _ | v
  · rcases query a with _ | p <;> rfl
  · rfl

lemma compute_foldl (evidence : List (String × ℕ)) (query : String → Option ℚ) :
    ∀ (alarms : List String) (acc : List (String × ℚ)),
      alarms.foldl
        (fun results a =>
          match lookupKey evidence a with
          | some v => results ++ [(a, (v : ℚ))]
          | none =>
            match query a with
            | some p => results ++ [(a, p)]
            | none => results ++ [(a, 0)])
        acc =
      acc ++ alarms.map (fun a => (a, alarmProbability evidence query a)) := by
  intro alarms
  induction alarms with
  | nil => intro acc; simp
  | cons a l ih =>
    intro acc
    simp only [List.foldl_cons]
    rw [computeStep_eq, ih]
    simp

/-- `compute_alarm_probabilities` returns the insertion-ordered map sending
each alarm node to its probability. -/
lemma compute_eq_map (alarms : List String) (evidence : List (String × ℕ))
    (query : String → Option ℚ) :
    computeAlarmProbabilities alarms evidence query =
      alarms.map (fun a => (a, alarmProbability evidence query a)) := by
  unfold computeAlarmProbabilities
  rw [compute_foldl]
  simp

lemma lookupKey_map (f : String → ℚ) :
    ∀ (l : List String) (b : String),
      lookupKey (l.map fun a => (a, f a)) b = if b ∈ l then some (f b) else none := by
  intro l
  induction l with
  | nil => intro b; simp [lookupKey]
  | cons a l ih =>
    intro b
    by_cases hab : a = b
    · subst hab
      simp [lookupKey]
    · simp only [List.map_cons, lookupKey, if_neg hab, ih]
      simp [List.mem_cons, Ne.symm hab]

/-! ## Helper lemmas for C2 -/

/-- Inserting `x` with `orderedInsert` puts it in front of every element of
equal key and does not disturb the relative order of the rest: filtering
any key class commutes with the insertion. -/
lemma orderedInsert_filter (x : String × ℚ) (q : ℚ) :
    ∀ l : List (String × ℚ),
      (List.orderedInsert (fun a b => b.2 ≤ a.2) x l).filter (fun p => p.2 = q) =
        if x.2 = q then x :: l.filter (fun p => p.2 = q)
        else l.filter (fun p => p.2 = q) := by
  intro l
  induction l with
  | nil =>
    by_cases hx : x.2 = q <;> simp [List.orderedInsert, List.filter, hx]
  | cons b t ih =>
    simp only [List.orderedInsert]
    by_cases hr : b.2 ≤ x.2
    · rw [if_pos hr]
      by_cases hx : x.2 = q <;> simp [List.filter_cons, hx]
    · rw [if_neg hr]
      simp only [List.filter_cons]
      rw [ih]
      by_cases hx : x.2 = q
      · have hb : ¬ b.2 = q := fun hc => hr (le_of_eq (hc.trans hx.symm))
        simp [hx, hb]
      · simp [hx]

/-- Stability of the modelled sort: each probability class keeps its input
order. -/
lemma rankAlarms_filter (probs : List (String × ℚ)) (q : ℚ) :
    (rankAlarms probs).filter (fun p => p.2 = q) = probs.filter (fun p => p.2 = q) := by
  unfold rankAlarms
  induction probs with
  | nil => rfl
  | cons a l ih =>
    simp only [List.insertionSort]
    rw [orderedInsert_filter, List.filter_cons]
    by_cases ha : a.2 = q
    · rw [if_pos ha, ih]
      simp [ha]
    · rw [if_neg ha, ih]
      simp [ha]

/-! ## Claim theorems: C4, C9, C10 -/

/-- C4 (corrected).  In `run_fuzzing_campaign`, with a non-empty target
list, the per-target budget is `min(β, remaining/|targets|)`; when that is
below `0.1 s` it is replaced by the raw remaining budget whenever
`remaining > 0`, and by `0.1` only when `remaining ≤ 0`.  Hence the budget
is at least `0.1 s` when no campaign time is left, but when
`0 < remaining` the guarantee is only `min(0.1, remaining)`: a positive
remaining budget below `0.1 s` is handed to the target as is. -/
theorem currentBeta_lower_bound (beta remaining : ℚ) (numTargets : ℕ)
    (hn : numTargets ≠ 0) :
    (remaining ≤ 0 → 1/10 ≤ currentBeta beta remaining numTargets) ∧
    (0 < remaining → min (1/10) remaining ≤ currentBeta beta remaining numTargets) := by
  unfold currentBeta
  simp only [hn, if_true, ne_eq, not_false_eq_true, if_pos]
  constructor
  · intro hr
    have hdiv : remaining / (numTargets : ℚ) ≤ 0 :=
      div_nonpos_iff.mpr (Or.inr ⟨hr, Nat.cast_nonneg numTargets⟩)
    have hcb : min beta (remaining / (numTargets : ℚ)) < 1/10 :=
      lt_of_le_of_lt (le_trans (min_le_right _ _) hdiv) (by norm_num)
    rw [if_pos hcb, if_neg (not_lt.mpr hr)]
  · intro hr
    by_cases hcb : min beta (remaining / (numTargets : ℚ)) < 1/10
    · rw [if_pos hcb, if_pos hr]
      exact min_le_right _ _
    · rw [if_neg hcb]
      exact le_trans (min_le_left _ _) (not_lt.mp hcb)

/-- Witness for `currentBeta_lower_bound` at β = 10, remaining = -1, one target. -/
theorem currentBeta_lower_bound_witness :
    ((-1 : ℚ) ≤ 0 → 1/10 ≤ currentBeta 10 (-1) 1) ∧
    ((0 : ℚ) < -1 → min (1/10) (-1) ≤ currentBeta 10 (-1) 1) :=
  currentBeta_lower_bound 10 (-1) 1 (by decide)

/-- Counterexample refuting C4 as stated: with β = 10, one target and a
positive remaining budget of 0.05 s, the computed per-target budget is
0.05 s, strictly below the claimed 0.1 s floor. -/
theorem currentBeta_counterexample :
    currentBeta 10 (1/20) 1 = 1/20 ∧ ¬ (1/10 : ℚ) ≤ currentBeta 10 (1/20) 1 := by
  constructor <;> norm_num [currentBeta]

/-- C9 (confirmed).  `reset_negative_evidence` is idempotent on every
evidence map; moreover, whenever the keys are duplicate-free (as dict keys
are) and no key is the empty string (node ids never are), it removes
exactly the entries whose value is 0 and leaves the others untouched. -/
theorem resetNegativeEvidence_idem (ev : List (String × ℕ)) :
    resetNegativeEvidence (resetNegativeEvidence ev) = resetNegativeEvidence ev ∧
    ((ev.map Prod.fst).Nodup → (∀ p ∈ ev, p.1 ≠ "") →
      resetNegativeEvidence ev = ev.filter (fun p => p.2 ≠ 0)) := by
  constructor
  · unfold resetNegativeEvidence
    exact reset_foldl_of_no_zero fun p hp => reset_no_zero hp
  · intro hnd hne
    unfold resetNegativeEvidence
    rw [reset_foldl_filter hne]
    apply List.filter_congr
    intro q hq
    rw [decide_eq_decide]
    constructor
    · intro h hq0
      exact h q hq hq0 rfl
    · intro h r hr hr0 hkey
      exact h (by rw [eq_of_mem_of_nodup_keys hnd hq hr hkey.symm]; exact hr0)

/-- Witness for `resetNegativeEvidence_idem` on the evidence map
`{a ↦ 0, b ↦ 1}`. -/
theorem resetNegativeEvidence_idem_witness :
    resetNegativeEvidence (resetNegativeEvidence [("a", 0), ("b", 1)]) =
      resetNegativeEvidence [("a", 0), ("b", 1)] ∧
    resetNegativeEvidence [("a", 0), ("b", 1)] =
      [("a", 0), ("b", 1)].filter (fun p => p.2 ≠ 0) :=
  ⟨(resetNegativeEvidence_idem [("a", 0), ("b", 1)]).1,
    (resetNegativeEvidence_idem [("a", 0), ("b", 1)]).2 (by decide) (by decide)⟩

/-- C10 (confirmed).  `exploitation_round` fuzzes exactly the targets whose
alarm id maps, in `alarm_lines`, to a line number other than 0: a target
with a missing entry or with line 0 contributes no result tuple and leaves
the `targets_fuzzed` counter unchanged, because `if not line: continue`
treats `0` like a missing entry. -/
theorem exploitationRound_skips_line_zero
    (alarmLines : List (String × ℕ)) (targets : List (String × ℚ)) :
    exploitationRound alarmLines targets =
      ((fuzzableTargets alarmLines targets).map Prod.fst,
        (fuzzableTargets alarmLines targets).length) := by
  unfold exploitationRound
  rw [exploitationRound_foldl]
  simp

/-! ## Helper lemmas for C8 -/

/-- `random.randint(0, n-1)` always returns an in-bounds offset. -/
lemma randint_lt {n : ℕ} (hn : n ≠ 0) (s : ℕ) : randint 0 (n - 1) s < n := by
  unfold randint
  have h1 : n - 1 + 1 - 0 = n := by omega
  rw [h1]
  have := Nat.mod_lt s (y := n) (by omega)
  omega

/-- `random.randint(lo, hi)` lies in `[lo, hi]` when `lo ≤ hi`. -/
lemma randint_mem {lo hi : ℕ} (h : lo ≤ hi) (s : ℕ) :
    lo ≤ randint lo hi s ∧ randint lo hi s ≤ hi := by
  unfold randint
  have h1 : hi + 1 - lo ≠ 0 := by omega
  have := Nat.mod_lt s (y := hi + 1 - lo) (by omega)
  omega

lemma getD_lt_256 {l : List ℕ} (hl : ∀ b ∈ l, b < 256) (i : ℕ) : l.getD i 0 < 256 := by
  by_cases h : i < l.length
  · rw [List.getD_eq_getElem l 0 h]
    exact hl _ (List.getElem_mem h)
  · rw [List.getD_eq_default l 0 (by omega)]
    omega

lemma mem_set_lt_256 {l : List ℕ} {i v x : ℕ} (hl : ∀ b ∈ l, b < 256) (hv : v < 256)
    (hx : x ∈ l.set i v) : x < 256 := by
  rcases List.mem_or_eq_of_mem_set hx with h | rfl
  · exact hl x h
  · exact hv

lemma packLE32_lt_256 (v : ℕ) : ∀ b ∈ packLE32 v, b < 256 := by
  intro b hb
  simp only [packLE32, List.mem_cons, List.not_mem_nil, or_false] at hb
  rcases hb with rfl | rfl | rfl | rfl <;> exact Nat.mod_lt _ (by omega)

lemma bitFlip_length (data : List ℕ) (s1 s2 : ℕ) :
    (bitFlip data s1 s2).length = data.length := by
  unfold bitFlip
  by_cases h : data.isEmpty <;> simp [h]

lemma byteFlip_length (data : List ℕ) (s1 : ℕ) :
    (byteFlip data s1).length = data.length := by
  unfold byteFlip
  by_cases h : data.isEmpty <;> simp [h]

lemma arithmetic_length (data : List ℕ) (s1 s2 : ℕ) (add : Bool) :
    (arithmetic data s1 s2 add).length = data.length := by
  unfold arithmetic
  by_cases h : data.isEmpty
  · simp [h]
  · cases add <;> simp [h]

lemma interestingValues_short (data : List ℕ) (s1 s2 : ℕ) (hne : data ≠ [])
    (h4 : data.length < 4) :
    interestingValues data s1 s2 =
      data ++ packLE32 (interestingInts.getD (s2 % interestingInts.length) 0) := by
  unfold interestingValues
  rw [if_neg (by simp [hne]), if_pos h4]

lemma interestingValues_long_length (data : List ℕ) (s1 s2 : ℕ)
    (h4 : 4 ≤ data.length) :
    (interestingValues data s1 s2).length = data.length := by
  unfold interestingValues
  have hne : ¬ data.isEmpty = true := by
    simp only [List.isEmpty_iff]
    intro h
    rw [h] at h4
    simp at h4
  rw [if_neg hne, if_neg (by omega)]
  simp

/-- The four unary mutation operators keep every byte below 256, so the
`bytearray` writes they model never fail. -/
lemma mutation_bytes_lt_256 (data : List ℕ) (s1 s2 : ℕ) (add : Bool)
    (hl : ∀ b ∈ data, b < 256) :
    (∀ b ∈ bitFlip data s1 s2, b < 256) ∧ (∀ b ∈ byteFlip data s1, b < 256) ∧
    (∀ b ∈ arithmetic data s1 s2 add, b < 256) ∧
    (∀ b ∈ interestingValues data s1 s2, b < 256) := by
  by_cases hemp : data.isEmpty = true
  · have hd : data = [] := List.isEmpty_iff.mp hemp
    subst hd
    refine ⟨?_, ?_, ?_, ?_⟩ <;> intro b hb <;> simp [bitFlip, byteFlip, arithmetic,
      interestingValues] at hb
  refine ⟨?_, ?_, ?_, ?_⟩
  · intro b hb
    unfold bitFlip at hb
    rw [if_neg hemp] at hb
    refine mem_set_lt_256 hl ?_ hb
    have h1 : data.getD (randint 0 (data.length - 1) s1) 0 < 2 ^ 8 := by
      simpa using getD_lt_256 hl _
    have hbit : randint 0 7 s2 ≤ 7 := (randint_mem (by omega) s2).2
    have h2 : 2 ^ randint 0 7 s2 < 2 ^ 8 := by
      calc 2 ^ randint 0 7 s2 ≤ 2 ^ 7 := Nat.pow_le_pow_right (by omega) hbit
        _ < 2 ^ 8 := by norm_num
    simpa using Nat.xor_lt_two_pow h1 h2
  · intro b hb
    unfold byteFlip at hb
    rw [if_neg hemp] at hb
    refine mem_set_lt_256 hl ?_ hb
    have h1 : data.getD (randint 0 (data.length - 1) s1) 0 < 2 ^ 8 := by
      simpa using getD_lt_256 hl _
    have h2 : (0xFF : ℕ) < 2 ^ 8 := by norm_num
    simpa using Nat.xor_lt_two_pow h1 h2
  · intro b hb
    unfold arithmetic at hb
    rw [if_neg hemp] at hb
    cases add with
    | true =>
      simp only [if_pos rfl] at hb
      exact mem_set_lt_256 hl (Nat.mod_lt _ (by omega)) hb
    | false =>
      rw [if_neg (by decide : ¬ (false = true))] at hb
      refine mem_set_lt_256 hl ?_ hb
      have h0 : (0 : ℤ) ≤ ((data.getD (randint 0 (data.length - 1) s1) 0 : ℤ) -
          (randint 1 10 s2 : ℤ)) % 256 := Int.emod_nonneg _ (by norm_num)
      have h1 : ((data.getD (randint 0 (data.length - 1) s1) 0 : ℤ) -
          (randint 1 10 s2 : ℤ)) % 256 < 256 := Int.emod_lt_of_pos _ (by norm_num)
      omega
  · intro b hb
    unfold interestingValues at hb
    rw [if_neg hemp] at hb
    have hc := packLE32_lt_256 (interestingInts.getD (s2 % interestingInts.length) 0)
    by_cases h4 : data.length < 4
    · rw [if_pos h4] at hb
      rcases List.mem_append.mp hb with h | h
      · exact hl b h
      · exact hc b h
    · rw [if_neg h4] at hb
      refine mem_set_lt_256 (fun x hx => ?_) (getD_lt_256 hc 3) hb
      refine mem_set_lt_256 (fun y hy => ?_) (getD_lt_256 hc 2) hx
      refine mem_set_lt_256 (fun z hz => ?_) (getD_lt_256 hc 1) hy
      exact mem_set_lt_256 hl (getD_lt_256 hc 0) hz

/-! ## Claim theorems: C3, C7, C2 -/

/-- C3 (confirmed).  For every alarm node `a` pinned in the evidence and
every state of the rest of the evidence and of the inference engine
(arbitrary oracle `query`), `compute_alarm_probabilities` reports exactly
the pinned value for `a`: `1.0` when the evidence maps `a` to 1 and `0.0`
when it maps `a` to 0.  The result does not depend on `query` at all, so no
inference query is run for `a`. -/
theorem computeAlarmProbabilities_pinned (alarms : List String)
    (evidence : List (String × ℕ)) (query : String → Option ℚ) (a : String)
    (ha : a ∈ alarms) :
    (lookupKey evidence a = some 1 →
      lookupKey (computeAlarmProbabilities alarms evidence query) a = some 1) ∧
    (lookupKey evidence a = some 0 →
      lookupKey (computeAlarmProbabilities alarms evidence query) a = some 0) := by
  rw [compute_eq_map, lookupKey_map, if_pos ha]
  unfold alarmProbability
  constructor <;> intro hv <;> rw [hv] <;> norm_num

/-- Witness for `computeAlarmProbabilities_pinned`: a network with two
alarms, one pinned true and one pinned false, and an engine that would
answer 9/10 everywhere. -/
theorem computeAlarmProbabilities_pinned_witness :
    (lookupKey
        (computeAlarmProbabilities ["Alarm(3)", "Alarm(7)"]
          [("Alarm(3)", 1), ("Alarm(7)", 0)] (fun _ => some (9/10)))
        "Alarm(3)" = some 1) ∧
    (lookupKey
        (computeAlarmProbabilities ["Alarm(3)", "Alarm(7)"]
          [("Alarm(3)", 1), ("Alarm(7)", 0)] (fun _ => some (9/10)))
        "Alarm(7)" = some 0) :=
  ⟨(computeAlarmProbabilities_pinned ["Alarm(3)", "Alarm(7)"]
      [("Alarm(3)", 1), ("Alarm(7)", 0)] (fun _ => some (9/10)) "Alarm(3)"
      (by decide)).1 (by decide),
    (computeAlarmProbabilities_pinned ["Alarm(3)", "Alarm(7)"]
      [("Alarm(3)", 1), ("Alarm(7)", 0)] (fun _ => some (9/10)) "Alarm(7)"
      (by decide)).2 (by decide)⟩

/-- C7 (confirmed).  When the posterior query for a single unpinned alarm
`a` fails (oracle answers `none`), `compute_alarm_probabilities` reports
`0.0` for `a`, the returned map still has one entry per alarm node in
order, and the failure does not influence any other alarm's entry: changing
the oracle's behaviour at `a` alone leaves every other alarm's reported
probability unchanged. -/
theorem computeAlarmProbabilities_failure (alarms : List String)
    (evidence : List (String × ℕ)) (query : String → Option ℚ) (a : String)
    (ha : a ∈ alarms) (hev : lookupKey evidence a = none) (hq : query a = none) :
    lookupKey (computeAlarmProbabilities alarms evidence query) a = some 0 ∧
    (computeAlarmProbabilities alarms evidence query).map Prod.fst = alarms ∧
    ∀ query' : String → Option ℚ, (∀ b, b ≠ a → query' b = query b) →
      ∀ b ∈ alarms, b ≠ a →
        lookupKey (computeAlarmProbabilities alarms evidence query') b =
          lookupKey (computeAlarmProbabilities alarms evidence query) b := by
  refine ⟨?_, ?_, ?_⟩
  · rw [compute_eq_map, lookupKey_map, if_pos ha]
    unfold alarmProbability
    rw [hev, hq]
  · rw [compute_eq_map, List.map_map]
    show List.map (fun a => a) alarms = alarms
    exact List.map_id alarms
  · intro query' hagree b hb hba
    rw [compute_eq_map, compute_eq_map, lookupKey_map, lookupKey_map, if_pos hb, if_pos hb]
    unfold alarmProbability
    rw [hagree b hba]

/-- Witness for `computeAlarmProbabilities_failure`: two alarms, no
evidence, an engine that fails everywhere, compared against an engine that
only differs on the failing alarm. -/
theorem computeAlarmProbabilities_failure_witness :
    lookupKey (computeAlarmProbabilities ["Alarm(3)", "Alarm(7)"] [] (fun _ => none))
        "Alarm(3)" = some 0 ∧
    (computeAlarmProbabilities ["Alarm(3)", "Alarm(7)"] [] (fun _ => none)).map
        Prod.fst = ["Alarm(3)", "Alarm(7)"] ∧
    lookupKey
        (computeAlarmProbabilities ["Alarm(3)", "Alarm(7)"] []
          (fun s => if s = "Alarm(3)" then some (1/2) else none))
        "Alarm(7)" =
      lookupKey (computeAlarmProbabilities ["Alarm(3)", "Alarm(7)"] [] (fun _ => none))
        "Alarm(7)" :=
  ⟨(computeAlarmProbabilities_failure ["Alarm(3)", "Alarm(7)"] [] (fun _ => none)
      "Alarm(3)" (by decide) rfl rfl).1,
    (computeAlarmProbabilities_failure ["Alarm(3)", "Alarm(7)"] [] (fun _ => none)
      "Alarm(3)" (by decide) rfl rfl).2.1,
    (computeAlarmProbabilities_failure ["Alarm(3)", "Alarm(7)"] [] (fun _ => none)
      "Alarm(3)" (by decide) rfl rfl).2.2
      (fun s => if s = "Alarm(3)" then some (1/2) else none)
      (fun _ hb => if_neg hb) "Alarm(7)" (by decide) (by decide)⟩

/-- Counterexample refuting C2 as stated: two alarms tie at probability
1.0 (e.g. both pinned true); the code keeps them in node-insertion order
(`Alarm(9)` first), while lexicographic order of the alarm ids would put
`Alarm(10)` first. -/
theorem rankAlarms_tie_not_lex :
    rankAlarms [("Alarm(9)", 1), ("Alarm(10)", 1)] =
      [("Alarm(9)", 1), ("Alarm(10)", 1)] ∧
    "Alarm(10)".data < "Alarm(9)".data := by
  constructor
  · decide
  · decide

/-- C2 (corrected).  `rank_alarms` sorts the probability map descending by
probability; equal probabilities keep the order in which the alarms are
enumerated from the network (dict insertion order) — Python's `sorted` is
stable — not lexicographic order of the ids.  Stated as: the result is
sorted descending, is a permutation of the input, and every probability
class appears in exactly its input order. -/
theorem rankAlarms_sorted_stable (probs : List (String × ℚ)) :
    List.Sorted (fun x y : String × ℚ => y.2 ≤ x.2) (rankAlarms probs) ∧
    List.Perm (rankAlarms probs) probs ∧
    ∀ q : ℚ, (rankAlarms probs).filter (fun p => p.2 = q) =
      probs.filter (fun p => p.2 = q) := by
  haveI htot : IsTotal (String × ℚ) (fun x y => y.2 ≤ x.2) := ⟨fun a b => le_total b.2 a.2⟩
  haveI htrans : IsTrans (String × ℚ) (fun x y => y.2 ≤ x.2) :=
    ⟨fun _ _ _ h1 h2 => le_trans h2 h1⟩
  exact ⟨List.sorted_insertionSort _ probs, List.perm_insertionSort _ probs,
    fun q => rankAlarms_filter probs q⟩

/-! ## Claim theorem: C8 -/

/-- C8 (confirmed).  Every mutation operator is total on arbitrary byte
strings: the empty input is returned unchanged by all of them (and by the
`mutate` dispatcher, which always runs one of the four unary strategies);
every random offset drawn with `randint(0, n-1)` is in bounds; `bit_flip`,
`byte_flip` and `arithmetic` preserve the length; `interesting_values`
appends exactly 4 packed bytes to a non-empty input shorter than 4 bytes
and preserves the length otherwise; and all operators keep every byte
below 256, so the modelled `bytearray` writes cannot fail. -/
theorem mutationStrategies_total (data d1 d2 : List ℕ) (s1 s2 k : ℕ) (add : Bool) :
    (bitFlip [] s1 s2 = [] ∧ byteFlip [] s1 = [] ∧ arithmetic [] s1 s2 add = [] ∧
      interestingValues [] s1 s2 = [] ∧ mutate [] k s1 s2 add = [] ∧
      splice [] d2 s1 s2 = d2 ∧ splice d1 [] s1 s2 = d1) ∧
    (∀ n : ℕ, n ≠ 0 → ∀ s : ℕ, randint 0 (n - 1) s < n) ∧
    ((bitFlip data s1 s2).length = data.length ∧
      (byteFlip data s1).length = data.length ∧
      (arithmetic data s1 s2 add).length = data.length) ∧
    (data ≠ [] → data.length < 4 →
      interestingValues data s1 s2 =
        data ++ packLE32 (interestingInts.getD (s2 % interestingInts.length) 0) ∧
      (interestingValues data s1 s2).length = data.length + 4) ∧
    (4 ≤ data.length → (interestingValues data s1 s2).length = data.length) ∧
    ((∀ b ∈ data, b < 256) →
      (∀ b ∈ bitFlip data s1 s2, b < 256) ∧ (∀ b ∈ byteFlip data s1, b < 256) ∧
      (∀ b ∈ arithmetic data s1 s2 add, b < 256) ∧
      (∀ b ∈ interestingValues data s1 s2, b < 256)) ∧
    (mutate data k s1 s2 add = bitFlip data s1 s2 ∨
      mutate data k s1 s2 add = byteFlip data s1 ∨
      mutate data k s1 s2 add = arithmetic data s1 s2 add ∨
      mutate data k s1 s2 add = interestingValues data s1 s2) := by
  have hdispatch : ∀ d : List ℕ,
      mutate d k s1 s2 add = bitFlip d s1 s2 ∨ mutate d k s1 s2 add = byteFlip d s1 ∨
      mutate d k s1 s2 add = arithmetic d s1 s2 add ∨
      mutate d k s1 s2 add = interestingValues d s1 s2 := by
    intro d
    rcases (by omega : k % 4 = 0 ∨ k % 4 = 1 ∨ k % 4 = 2 ∨ k % 4 = 3) with h | h | h | h
    · exact Or.inl (by simp [mutate, h])
    · exact Or.inr (Or.inl (by simp [mutate, h]))
    · exact Or.inr (Or.inr (Or.inl (by simp [mutate, h])))
    · exact Or.inr (Or.inr (Or.inr (by simp [mutate, h])))
  refine ⟨⟨rfl, rfl, ?_, rfl, ?_, rfl, ?_⟩, ?_, ?_, ?_, ?_, ?_, hdispatch data⟩
  · cases add <;> rfl
  · rcases hdispatch [] with h | h | h | h <;> rw [h]
    · rfl
    · rfl
    · cases add <;> rfl
    · rfl
  · by_cases h : d1.isEmpty = true
    · rw [List.isEmpty_iff.mp h]
      rfl
    · unfold splice
      rw [if_neg h]
      rfl
  · exact fun n hn s => randint_lt hn s
  · exact ⟨bitFlip_length data s1 s2, byteFlip_length data s1,
      arithmetic_length data s1 s2 add⟩
  · intro hne h4
    refine ⟨interestingValues_short data s1 s2 hne h4, ?_⟩
    rw [interestingValues_short data s1 s2 hne h4]
    simp [packLE32]
  · exact interestingValues_long_length data s1 s2
  · exact mutation_bytes_lt_256 data s1 s2 add

/-! ## Helper lemmas for C5 -/

lemma mem_inputVars {F : Finset Fact} {v : String} :
    v ∈ inputVars F ↔ Fact.Input v ∈ F := by
  unfold inputVars
  rw [Finset.mem_biUnion]
  constructor
  · rintro ⟨f, hf, hv⟩
    cases f <;> simp at hv
    · subst hv; exact hf
  · intro h
    exact ⟨Fact.Input v, h, by simp⟩

lemma mem_taintVars {F : Finset Fact} {v : String} :
    v ∈ taintVars F ↔ Fact.Taint v ∈ F := by
  unfold taintVars
  rw [Finset.mem_biUnion]
  constructor
  · rintro ⟨f, hf, hv⟩
    cases f <;> simp at hv
    · subst hv; exact hf
  · intro h
    exact ⟨Fact.Taint v, h, by simp⟩

lemma mem_flowPairs {F : Finset Fact} {p : String × String} :
    p ∈ flowPairs F ↔ Fact.Flow p.1 p.2 ∈ F := by
  unfold flowPairs
  rw [Finset.mem_biUnion]
  constructor
  · rintro ⟨f, hf, hv⟩
    cases f <;> simp only [Finset.mem_singleton, Finset.not_mem_empty] at hv
    · subst hv
      exact hf
  · intro h
    exact ⟨Fact.Flow p.1 p.2, h, by simp⟩

lemma mem_memPairs {F : Finset Fact} {p : String × ℕ} :
    p ∈ memPairs F ↔ Fact.Memory p.1 p.2 ∈ F := by
  unfold memPairs
  rw [Finset.mem_biUnion]
  constructor
  · rintro ⟨f, hf, hv⟩
    cases f <;> simp only [Finset.mem_singleton, Finset.not_mem_empty] at hv
    · subst hv
      exact hf
  · intro h
    exact ⟨Fact.Memory p.1 p.2, h, by simp⟩

lemma mem_pass_facts {s : DGState} {f : Fact} :
    f ∈ (pass s).facts ↔
      f ∈ s.facts ∨ f ∈ r1Facts s.facts ∨ f ∈ r2Facts s.facts ∨ f ∈ r3Facts s.facts := by
  simp [pass, Finset.mem_union, or_assoc]

lemma mem_pass_apps {s : DGState} {a : RApp} :
    a ∈ (pass s).ruleApps ↔
      a ∈ s.ruleApps ∨ a ∈ r1Apps s.facts ∨ a ∈ r2Apps s.facts ∨ a ∈ r3Apps s.facts := by
  simp [pass, Finset.mem_union, or_assoc]

/-- The per-pass derived facts are only `Taint` and `Alarm` facts, so the
`Input`, `Flow` and `Memory` stores never change across passes. -/
lemma input_pass {s : DGState} {v : String} :
    Fact.Input v ∈ (pass s).facts ↔ Fact.Input v ∈ s.facts := by
  rw [mem_pass_facts]
  simp [r1Facts, r2Facts, r3Facts]

lemma flow_pass {s : DGState} {a b : String} :
    Fact.Flow a b ∈ (pass s).facts ↔ Fact.Flow a b ∈ s.facts := by
  rw [mem_pass_facts]
  simp [r1Facts, r2Facts, r3Facts]

lemma memory_pass {s : DGState} {v : String} {t : ℕ} :
    Fact.Memory v t ∈ (pass s).facts ↔ Fact.Memory v t ∈ s.facts := by
  rw [mem_pass_facts]
  simp [r1Facts, r2Facts, r3Facts]

lemma taint_pass {s : DGState} {v : String} (h : Fact.Taint v ∈ (pass s).facts) :
    Fact.Taint v ∈ s.facts ∨ Fact.Input v ∈ s.facts ∨ ∃ a, Fact.Flow a v ∈ s.facts := by
  rw [mem_pass_facts] at h
  rcases h with h | h | h | h
  · exact Or.inl h
  · simp only [r1Facts, Finset.mem_image] at h
    rcases h with ⟨w, hw, hww⟩
    rcases Fact.Taint.inj hww
    exact Or.inr (Or.inl (mem_inputVars.mp hw))
  · simp only [r2Facts, Finset.mem_image] at h
    rcases h with ⟨p, hp, hpp⟩
    rcases Fact.Taint.inj hpp
    simp only [r2Pairs, Finset.mem_filter, Finset.mem_product] at hp
    exact Or.inr (Or.inr ⟨p.2.1, mem_flowPairs.mp hp.1.2⟩)
  · simp only [r3Facts, Finset.mem_image] at h
    rcases h with ⟨p, hp, hpp⟩
    exact absurd hpp (by simp)

lemma alarm_pass {s : DGState} {t : ℕ} (h : Fact.Alarm t ∈ (pass s).facts) :
    Fact.Alarm t ∈ s.facts ∨ ∃ v, Fact.Memory v t ∈ s.facts := by
  rw [mem_pass_facts] at h
  rcases h with h | h | h | h
  · exact Or.inl h
  · simp only [r1Facts, Finset.mem_image] at h
    rcases h with ⟨w, hw, hww⟩
    exact absurd hww (by simp)
  · simp only [r2Facts, Finset.mem_image] at h
    rcases h with ⟨p, hp, hpp⟩
    exact absurd hpp (by simp)
  · simp only [r3Facts, Finset.mem_image] at h
    rcases h with ⟨p, hp, hpp⟩
    rcases Fact.Alarm.inj hpp
    simp only [r3Pairs, Finset.mem_filter, Finset.mem_product] at hp
    exact Or.inr ⟨p.2.1, mem_memPairs.mp hp.1.2⟩

/-- Invariant of the pass iteration: `Input`, `Flow` and `Memory` facts are
exactly those of the initial store, every `Taint` fact is over a variable
that is initially tainted, an input, or a flow target, and every `Alarm`
fact is over an initial alarm line or a memory line. -/
lemma pass_invariant (s : DGState) : ∀ n : ℕ,
    (∀ v, Fact.Input v ∈ (pass^[n] s).facts ↔ Fact.Input v ∈ s.facts) ∧
    (∀ a b, Fact.Flow a b ∈ (pass^[n] s).facts ↔ Fact.Flow a b ∈ s.facts) ∧
    (∀ v t, Fact.Memory v t ∈ (pass^[n] s).facts ↔ Fact.Memory v t ∈ s.facts) ∧
    (∀ v, Fact.Taint v ∈ (pass^[n] s).facts →
      Fact.Taint v ∈ s.facts ∨ Fact.Input v ∈ s.facts ∨ ∃ a, Fact.Flow a v ∈ s.facts) ∧
    (∀ t, Fact.Alarm t ∈ (pass^[n] s).facts →
      Fact.Alarm t ∈ s.facts ∨ ∃ v, Fact.Memory v t ∈ s.facts) := by
  intro n
  induction n with
  | zero =>
    exact ⟨fun v => Iff.rfl, fun a b => Iff.rfl, fun v t => Iff.rfl,
      fun v h => Or.inl h, fun t h => Or.inl h⟩
  | succ n ih =>
    obtain ⟨hin, hfl, hmem, htaint, halarm⟩ := ih
    rw [Function.iterate_succ_apply']
    refine ⟨?_, ?_, ?_, ?_, ?_⟩
    · intro v
      rw [input_pass]
      exact hin v
    · intro a b
      rw [flow_pass]
      exact hfl a b
    · intro v t
      rw [memory_pass]
      exact hmem v t
    · intro v h
      rcases taint_pass h with h | h | ⟨a, h⟩
      · exact htaint v h
      · exact Or.inr (Or.inl ((hin v).mp h))
      · exact Or.inr (Or.inr ⟨a, (hfl a v).mp h⟩)
    · intro t h
      rcases alarm_pass h with h | ⟨v, h⟩
      · exact halarm t h
      · exact Or.inr ⟨v, (hmem v t).mp h⟩

/-- Every rule application ever deduplicated into the store lies in the
finite `appUniverse` of the initial state. -/
lemma apps_subset_universe (s : DGState) : ∀ n : ℕ,
    (pass^[n] s).ruleApps ⊆ appUniverse s := by
  intro n
  induction n with
  | zero =>
    intro a ha
    unfold appUniverse
    simp only [Finset.mem_union]
    exact Or.inl (Or.inl (Or.inl ha))
  | succ n ih =>
    rw [Function.iterate_succ_apply']
    intro a ha
    rw [mem_pass_apps] at ha
    rcases ha with ha | ha | ha | ha
    · exact ih ha
    · have h1 : a ∈ r1Apps s.facts := by
        simp only [r1Apps, Finset.mem_image] at ha ⊢
        rcases ha with ⟨v, hv, rfl⟩
        exact ⟨v, mem_inputVars.mpr (((pass_invariant s n).1 v).mp (mem_inputVars.mp hv)), rfl⟩
      unfold appUniverse
      simp only [Finset.mem_union]
      exact Or.inl (Or.inl (Or.inr h1))
    · simp only [r2Apps, Finset.mem_image] at ha
      rcases ha with ⟨p, hp, rfl⟩
      simp only [r2Pairs, Finset.mem_filter, Finset.mem_product] at hp
      obtain ⟨⟨hpt, hpf⟩, -⟩ := hp
      have h1 : p.1 ∈ taintU s.facts := by
        unfold taintU
        simp only [Finset.mem_union, Finset.mem_image]
        rcases (pass_invariant s n).2.2.2.1 p.1 (mem_taintVars.mp hpt) with h | h | ⟨w, h⟩
        · exact Or.inl (Or.inl (mem_taintVars.mpr h))
        · exact Or.inl (Or.inr (mem_inputVars.mpr h))
        · exact Or.inr ⟨(w, p.1), mem_flowPairs.mpr h, rfl⟩
      have h2 : p.2 ∈ flowPairs s.facts :=
        mem_flowPairs.mpr (((pass_invariant s n).2.1 p.2.1 p.2.2).mp (mem_flowPairs.mp hpf))
      unfold appUniverse
      simp only [Finset.mem_union, Finset.mem_image]
      exact Or.inl (Or.inr ⟨p, Finset.mem_product.mpr ⟨h1, h2⟩, rfl⟩)
    · simp only [r3Apps, Finset.mem_image] at ha
      rcases ha with ⟨p, hp, rfl⟩
      simp only [r3Pairs, Finset.mem_filter, Finset.mem_product] at hp
      obtain ⟨⟨hpt, hpm⟩, -⟩ := hp
      have h1 : p.1 ∈ taintU s.facts := by
        unfold taintU
        simp only [Finset.mem_union, Finset.mem_image]
        rcases (pass_invariant s n).2.2.2.1 p.1 (mem_taintVars.mp hpt) with h | h | ⟨w, h⟩
        · exact Or.inl (Or.inl (mem_taintVars.mpr h))
        · exact Or.inl (Or.inr (mem_inputVars.mpr h))
        · exact Or.inr ⟨(w, p.1), mem_flowPairs.mpr h, rfl⟩
      have h2 : p.2 ∈ memPairs s.facts :=
        mem_memPairs.mpr (((pass_invariant s n).2.2.1 p.2.1 p.2.2).mp (mem_memPairs.mp hpm))
      unfold appUniverse
      simp only [Finset.mem_union, Finset.mem_image]
      exact Or.inr ⟨p, Finset.mem_product.mpr ⟨h1, h2⟩, rfl⟩

/-- Each pass only enlarges the rule-application store. -/
lemma apps_mono_pass (t : DGState) : t.ruleApps ⊆ (pass t).ruleApps := by
  intro a ha
  rw [mem_pass_apps]
  exact Or.inl ha

/-- While the loop keeps reporting `changed`, the rule-application store
grows strictly, so its cardinality grows at least linearly. -/
lemma apps_card_growth (s : DGState) : ∀ n : ℕ,
    (∀ m, m < n → (pass (pass^[m] s)).ruleApps ≠ (pass^[m] s).ruleApps) →
      s.ruleApps.card + n ≤ (pass^[n] s).ruleApps.card := by
  intro n
  induction n with
  | zero =>
    intro _
    simp
  | succ n ih =>
    intro h
    have hsub : (pass^[n] s).ruleApps ⊆ (pass^[n + 1] s).ruleApps := by
      rw [Function.iterate_succ_apply']
      exact apps_mono_pass _
    have hne : (pass^[n + 1] s).ruleApps ≠ (pass^[n] s).ruleApps := by
      rw [Function.iterate_succ_apply']
      exact h n (Nat.lt_succ_self n)
    have hlt : (pass^[n] s).ruleApps.card < (pass^[n + 1] s).ruleApps.card :=
      Finset.card_lt_card (lt_of_le_of_ne hsub fun hc => hne hc.symm)
    have hrec := ih fun m hm => h m (Nat.lt_succ_of_lt hm)
    omega

/-! ## Helper lemmas for C1 -/

lemma getLast?_eq_getLastD : ∀ (l : List String) (d : String), l ≠ [] →
    l.getLast? = some (l.getLastD d) := by
  intro l
  induction l with
  | nil => intro d h; exact absurd rfl h
  | cons a t ih =>
    intro d _
    cases t with
    | nil => rfl
    | cons b t' =>
      rw [List.getLast?_cons_cons, List.getLastD_cons]
      exact ih a (by simp)

/-- Edges survive `breakCycles` only if they were in the original graph. -/
lemma breakCycles_subset {L : List (List String)} :
    ∀ {g : List (String × String)} {e : String × String},
      e ∈ breakCycles g L → e ∈ g := by
  induction L with
  | nil => intro g e h; exact h
  | cons c L ih =>
    intro g e h
    have h' := ih (g := removeCycleEdge g c) h
    exact List.mem_of_mem_filter h'

/-- After the removal loop, the back edge of every enumerated cycle is
gone: it is removed when its cycle is processed and never re-added. -/
lemma backEdge_not_mem_breakCycles {L : List (List String)} :
    ∀ {g : List (String × String)} {c : List String}, c ∈ L →
      backEdge c ∉ breakCycles g L := by
  induction L with
  | nil => intro g c h; simp at h
  | cons c' L ih =>
    intro g c h hmem
    rcases List.mem_cons.mp h with rfl | hL
    · have h1 : backEdge c ∈ removeCycleEdge g c := breakCycles_subset hmem
      simp [removeCycleEdge, List.mem_filter] at h1
    · exact ih hL hmem

/-- Cycles are preserved by growing the edge set. -/
lemma IsCycleList.mono {g g' : List (String × String)} {c : List String}
    (hsub : ∀ e ∈ g, e ∈ g') (h : IsCycleList g c) : IsCycleList g' c :=
  ⟨h.1, h.2.imp (fun a b hab => hsub (a, b) hab) ⟩

/-- The closing edge of a directed cycle is an edge of the graph. -/
lemma IsCycleList.backEdge_mem {g : List (String × String)} {c : List String}
    (h : IsCycleList g c) : backEdge c ∈ g := by
  obtain ⟨hne, hch⟩ := h
  unfold cycleClose at hch
  rw [List.chain'_append] at hch
  obtain ⟨-, -, hlink⟩ := hch
  have := hlink (c.getLastD "") (by rw [getLast?_eq_getLastD c "" hne]; rfl)
    (c.headD "") rfl
  exact this

/-- Rotating a directed cycle by one yields a directed cycle. -/
lemma IsCycleList.rotate_one {g : List (String × String)} {c : List String}
    (h : IsCycleList g c) : IsCycleList g (c.rotate 1) := by
  obtain ⟨hne, hch⟩ := h
  cases c with
  | nil => exact absurd rfl hne
  | cons a t =>
    cases t with
    | nil =>
      exact ⟨by simp, by simpa [cycleClose] using hch⟩
    | cons b t' =>
      have hrot : (a :: b :: t').rotate 1 = (b :: t') ++ [a] := by
        rw [List.rotate_cons_succ, List.rotate_zero]
      rw [hrot]
      refine ⟨by simp, ?_⟩
      have hclose : cycleClose ((b :: t') ++ [a]) = ((b :: t') ++ [a]) ++ [b] := rfl
      rw [hclose, List.chain'_append]
      have hch' : List.Chain' (fun x y => (x, y) ∈ g) (a :: (b :: (t' ++ [a]))) := by
        simpa [cycleClose, List.cons_append] using hch
      rw [List.chain'_cons'] at hch'
      obtain ⟨hab, hrest⟩ := hch'
      refine ⟨hrest, List.chain'_singleton b, ?_⟩
      intro x hx y hy
      rw [List.getLast?_concat] at hx
      simp only [Option.mem_def, Option.some.injEq] at hx
      simp only [List.head?_cons, Option.mem_def, Option.some.injEq] at hy
      subst hx
      subst hy
      exact hab b rfl

/-- Rotating a directed cycle yields a directed cycle. -/
lemma IsCycleList.rotate {g : List (String × String)} {c : List String}
    (h : IsCycleList g c) : ∀ k, IsCycleList g (c.rotate k) := by
  intro k
  induction k with
  | zero => rw [List.rotate_zero]; exact h
  | succ k ih =>
    have : (c.rotate k).rotate 1 = c.rotate (k + 1) := by
      rw [List.rotate_rotate]
    rw [← this]
    exact ih.rotate_one

/-- Any list that is not duplicate-free splits around a repeated element. -/
lemma exists_split_of_not_nodup {l : List String} (h : ¬ l.Nodup) :
    ∃ xs a ys zs, l = xs ++ a :: ys ++ a :: zs := by
  induction l with
  | nil => exact absurd List.nodup_nil h
  | cons b t ih =>
    rw [List.nodup_cons] at h
    push_neg at h
    by_cases hb : b ∈ t
    · obtain ⟨ys, zs, rfl⟩ := List.append_of_mem hb
      exact ⟨[], b, ys, zs, rfl⟩
    · obtain ⟨xs, a, ys, zs, rfl⟩ := ih (h hb)
      exact ⟨b :: xs, a, ys, zs, rfl⟩

/-- Every directed cycle contains an elementary cycle: repeatedly cut out
the sub-cycle between two occurrences of a repeated node. -/
lemma exists_elem_cycle {g : List (String × String)} :
    ∀ (n : ℕ) (w : List String), w.length ≤ n → IsCycleList g w →
      ∃ c, IsElemCycle g c := by
  intro n
  induction n with
  | zero =>
    intro w hw hcyc
    have hwnil : w = [] := List.length_eq_zero.mp (Nat.le_zero.mp hw)
    exact absurd hwnil hcyc.1
  | succ n ih =>
    intro w hw hcyc
    by_cases hnd : w.Nodup
    · exact ⟨w, hcyc, hnd⟩
    · obtain ⟨xs, a, ys, zs, rfl⟩ := exists_split_of_not_nodup hnd
      refine ih (a :: ys) ?_ ?_
      · have := hw
        simp only [List.length_append, List.length_cons] at this ⊢
        omega
      · refine ⟨by simp, ?_⟩
        have hch := hcyc.2
        refine hch.infix ?_
        refine ⟨xs, zs ++ [(xs ++ a :: ys ++ a :: zs).headD ""], ?_⟩
        show xs ++ cycleClose (a :: ys) ++ (zs ++ [(xs ++ a :: ys ++ a :: zs).headD ""]) =
          cycleClose (xs ++ a :: ys ++ a :: zs)
        simp [cycleClose, List.append_assoc]

/-! ## Claim theorem: C1 -/

/-- C1 (confirmed).  When `L` is a complete enumeration of the elementary
cycles of `g` — every elementary cycle occurs in `L` in some rotation,
which is what `nx.simple_cycles` returns (and the empty enumeration when
`g` is already acyclic, matching the skipped removal branch) — removing
for each enumerated cycle its last-to-first edge leaves an acyclic graph.
In particular the single removal sweep of `build_network` already
converges: the conditional repetition the specification allows for is
vacuous, residual cycles cannot remain, and the Bayesian network built
over the surviving edges is a DAG. -/
theorem buildNetwork_acyclic (g : List (String × String)) (L : List (List String))
    (hcomplete : ∀ c, IsElemCycle g c → ∃ k, c.rotate k ∈ L) :
    IsAcyclic (breakCycles g L) := by
  intro w hw
  obtain ⟨c, hc, hnodup⟩ := exists_elem_cycle w.length w le_rfl hw
  have hcg : IsCycleList g c := hc.mono fun e he => breakCycles_subset he
  obtain ⟨k, hkL⟩ := hcomplete c ⟨hcg, hnodup⟩
  have hrot : IsCycleList (breakCycles g L) (c.rotate k) := hc.rotate k
  exact backEdge_not_mem_breakCycles hkL hrot.backEdge_mem

/-- Witness for `buildNetwork_acyclic`: the empty derivation graph, whose
cycle enumeration is empty. -/
theorem buildNetwork_acyclic_witness :
    (∀ c, IsElemCycle ([] : List (String × String)) c →
      ∃ k, c.rotate k ∈ ([] : List (List String))) ∧
    IsAcyclic (breakCycles [] []) :=
  have hnocycle : ∀ c, IsElemCycle ([] : List (String × String)) c →
      ∃ k, c.rotate k ∈ ([] : List (List String)) :=
    fun _ hc => absurd hc.1.backEdge_mem (List.not_mem_nil _)
  ⟨hnocycle, buildNetwork_acyclic [] [] hnocycle⟩

/-! ## Claim theorem: C5 -/

/-- C5 (confirmed).  The `apply_rules` fixpoint loop terminates on every
initial state: after finitely many passes a pass adds no new rule
application, so `changed` stays `False` and the `while` loop exits.
Moreover every fact ever derived lies in the finite Herbrand bound
`factUniverse` determined by the variables and lines of the initial store,
and deduplication makes the rule-application store grow monotonically
(`apps_mono_pass`), which is what the cardinality argument rests on. -/
theorem applyRules_terminates (s : DGState) :
    (∃ n, (pass (pass^[n] s)).ruleApps = (pass^[n] s).ruleApps) ∧
    ∀ n, (pass^[n] s).facts ⊆ factUniverse s.facts := by
  constructor
  · by_contra hc
    push_neg at hc
    have hgrow := apps_card_growth s ((appUniverse s).card + 1) fun m _ => hc m
    have hbound : (pass^[(appUniverse s).card + 1] s).ruleApps.card ≤ (appUniverse s).card :=
      Finset.card_le_card (apps_subset_universe s _)
    omega
  · intro n f hf
    unfold factUniverse
    simp only [Finset.mem_union, Finset.mem_image]
    cases f with
    | Input v => exact Or.inl (Or.inl (Or.inl (((pass_invariant s n).1 v).mp hf)))
    | Flow a b => exact Or.inl (Or.inl (Or.inl (((pass_invariant s n).2.1 a b).mp hf)))
    | Memory v t => exact Or.inl (Or.inl (Or.inl (((pass_invariant s n).2.2.1 v t).mp hf)))
    | Taint v =>
      rcases (pass_invariant s n).2.2.2.1 v hf with h | h | ⟨a, h⟩
      · exact Or.inl (Or.inl (Or.inl h))
      · exact Or.inl (Or.inl (Or.inr ⟨v, mem_inputVars.mpr h, rfl⟩))
      · exact Or.inl (Or.inr ⟨(a, v), mem_flowPairs.mpr h, rfl⟩)
    | Alarm t =>
      rcases (pass_invariant s n).2.2.2.2 t hf with h | ⟨v, h⟩
      · exact Or.inl (Or.inl (Or.inl h))
      · exact Or.inr ⟨(v, t), mem_memPairs.mpr h, rfl⟩

/-- Witness for `applyRules_terminates` on the EDB of the running example:
one input, one flow and one memory fact. -/
theorem applyRules_terminates_witness :
    (∃ n,
      (pass (pass^[n] (DGState.mk {Fact.Input "x", Fact.Flow "x" "y", Fact.Memory "y" 5}
        ∅))).ruleApps =
      (pass^[n] (DGState.mk {Fact.Input "x", Fact.Flow "x" "y", Fact.Memory "y" 5}
        ∅)).ruleApps) ∧
    ∀ n, (pass^[n] (DGState.mk {Fact.Input "x", Fact.Flow "x" "y", Fact.Memory "y" 5}
        ∅)).facts ⊆
      factUniverse (DGState.mk {Fact.Input "x", Fact.Flow "x" "y", Fact.Memory "y" 5}
        ∅).facts :=
  applyRules_terminates (DGState.mk {Fact.Input "x", Fact.Flow "x" "y", Fact.Memory "y" 5} ∅)

/-! ## Claim theorems: C6 -/

/-- Counterexample refuting C6 as stated: the claim names the canonical id
`R_<label>_[<sorted premise ids>]-><conclusion>`, but the code builds ids
with the `Rule_` spelling.  On a graph that already contains the node
`R_A_[p]->c`, the call `add_rule_application('A', ['p'], 'c')` does not
return `False`: it inserts a fresh `Rule_A_[p]->c` node, returns `True`
and increments the counter. -/
theorem addRuleApplication_id_counterexample :
    "R_A_[p]->c" ∈ (DGraph.mk {"R_A_[p]->c"} ∅ 0).nodes ∧
    (addRuleApplication (DGraph.mk {"R_A_[p]->c"} ∅ 0) "A" ["p"] "c").2 = true ∧
    (addRuleApplication (DGraph.mk {"R_A_[p]->c"} ∅ 0) "A" ["p"] "c").1.rulesApplied = 1 := by
  refine ⟨Finset.mem_singleton_self _, ?_, ?_⟩ <;>
    · rw [addRuleApplication, if_neg (by decide)]

/-- C6 (corrected, id spelling `Rule_` instead of `R_`).  If a node with
the canonical id `Rule_<label>_[<sorted premise ids>]-><conclusion>` is
already present, `add_rule_application` returns `False` and leaves the
graph and the counter unchanged; otherwise it inserts the rule node, an
edge from each premise to it and an edge from it to the conclusion,
increments the counter by one, and returns `True`. -/
theorem addRuleApplication_spec (g : DGraph) (rule : String) (premises : List String)
    (conclusion : String) :
    (ruleNodeId rule premises conclusion ∈ g.nodes →
      addRuleApplication g rule premises conclusion = (g, false)) ∧
    (ruleNodeId rule premises conclusion ∉ g.nodes →
      (addRuleApplication g rule premises conclusion).2 = true ∧
      (addRuleApplication g rule premises conclusion).1.rulesApplied =
        g.rulesApplied + 1 ∧
      ruleNodeId rule premises conclusion ∈
        (addRuleApplication g rule premises conclusion).1.nodes ∧
      (∀ p ∈ premises,
        (p, ruleNodeId rule premises conclusion) ∈
          (addRuleApplication g rule premises conclusion).1.edges) ∧
      (ruleNodeId rule premises conclusion, conclusion) ∈
        (addRuleApplication g rule premises conclusion).1.edges) := by
  constructor
  · intro hmem
    rw [addRuleApplication, if_pos hmem]
  · intro hmem
    rw [addRuleApplication, if_neg hmem]
    refine ⟨rfl, rfl, ?_, ?_, ?_⟩
    · simp
    · intro p hp
      simp only [Finset.mem_union, List.mem_toFinset, List.mem_map]
      exact Or.inl (Or.inr ⟨p, hp, rfl⟩)
    · simp

/-- Witness for `addRuleApplication_spec`: the duplicate branch on a graph
already holding the rule node, and the fresh branch on the empty graph. -/
theorem addRuleApplication_spec_witness :
    addRuleApplication (DGraph.mk {ruleNodeId "R1" ["p"] "c"} ∅ 0) "R1" ["p"] "c" =
      (DGraph.mk {ruleNodeId "R1" ["p"] "c"} ∅ 0, false) ∧
    (addRuleApplication (DGraph.mk ∅ ∅ 0) "R1" ["p"] "c").2 = true ∧
    (addRuleApplication (DGraph.mk ∅ ∅ 0) "R1" ["p"] "c").1.rulesApplied = 0 + 1 :=
  ⟨(addRuleApplication_spec (DGraph.mk {ruleNodeId "R1" ["p"] "c"} ∅ 0) "R1" ["p"] "c").1
      (Finset.mem_singleton_self _),
    ((addRuleApplication_spec (DGraph.mk ∅ ∅ 0) "R1" ["p"] "c").2
      (Finset.not_mem_empty _)).1,
    ((addRuleApplication_spec (DGraph.mk ∅ ∅ 0) "R1" ["p"] "c").2
      (Finset.not_mem_empty _)).2.1⟩

/-- Witness for `mutationStrategies_total` on the byte strings `[1, 2, 3]`
(short) and `[1, 2, 3, 4, 5]` (long). -/
theorem mutationStrategies_total_witness :
    interestingValues [1, 2, 3] 5 3 =
      [1, 2, 3] ++ packLE32 (interestingInts.getD (3 % interestingInts.length) 0) ∧
    (interestingValues [1, 2, 3, 4, 5] 5 3).length = 5 ∧
    (∀ b ∈ bitFlip [1, 2, 3] 5 3, b < 256) ∧
    ((3 : ℕ) ≠ 0 → ∀ s : ℕ, randint 0 (3 - 1) s < 3) := by
  have h1 := mutationStrategies_total [1, 2, 3] [6] [7] 5 3 6 true
  have h2 := mutationStrategies_total [1, 2, 3, 4, 5] [6] [7] 5 3 6 true
  obtain ⟨-, hrand, -, hshort, -, hbytes, -⟩ := h1
  obtain ⟨-, -, -, -, hlong, -, -⟩ := h2
  exact ⟨(hshort (by decide) (by decide)).1, hlong (by decide),
    (hbytes (by decide)).1, fun _ s => hrand 3 (by decide) s⟩

end Bayzzer
